import Mathlib

/-
Verification development for the sapo reachability and parameter-synthesis
engine.  The definitions below shallowly embed the bundle geometry
(Bundle.cpp / Bundle.h), the Sapo engine loops (Sapo.cpp) and the STL layer.
Machine doubles are modelled by real numbers; linear-programming calls,
whose sources are not part of the analysed tree, are modelled from the
specification as exact suprema over the corresponding point sets.
-/

namespace Sapo

/-- Dot product of two coordinate lists, truncating at the shorter list
(this mirrors how every scalar product in the source iterates over the
paired entries of a direction row and a point). -/
def dot (u v : List ℝ) : ℝ :=
  (List.zipWith (fun a b => a * b) u v).sum

/-- Negation of a vector, as in the source expression -dir_matrix[i]. -/
def negVec (u : List ℝ) : List ℝ :=
  u.map (fun a => -a)

theorem dot_negVec (u v : List ℝ) : dot (negVec u) v = -(dot u v) := by
  induction u generalizing v with
  | nil => simp [dot, negVec]
  | cons a t ih =>
    cases v with
    | nil => simp [dot, negVec]
    | cons b tv =>
      simp only [dot, negVec, List.map_cons, List.zipWith_cons_cons,
        List.sum_cons] at *
      rw [ih tv]
      ring

theorem dot_zero (u : List ℝ) (n : ℕ) : dot u (List.replicate n 0) = 0 := by
  induction u generalizing n with
  | nil => simp [dot]
  | cons a t ih =>
    cases n with
    | zero => simp [dot]
    | succ m =>
      simp only [List.replicate_succ, dot, List.zipWith_cons_cons,
        List.sum_cons] at *
      rw [mul_zero, zero_add]
      exact ih m

/-- H-representation polytope: the pair (A, b) denoting the point set
with A x less or equal b (Polytope.h; the polytope sources themselves are
outside the analysed tree). -/
structure Polytope where
  A : List (List ℝ)
  b : List ℝ

/-- Point set of a polytope: every row constraint is satisfied. -/
def Polytope.points (P : Polytope) : Set (List ℝ) :=
  {x | ∀ p ∈ List.zip P.A P.b, dot p.1 x ≤ p.2}

/-- Shallow embedding of the Bundle data (Bundle.h): direction matrix,
paired offsets, template matrix and the assumption constraints recorded
on the bundle. -/
@[ext]
structure Bundle where
  dir_matrix : List (List ℝ)
  offp : List ℝ
  offm : List ℝ
  t_matrix : List (List ℕ)
  constraintDirections : List (List ℝ)
  constraintOffsets : List ℝ

/-- Number of directions, as Bundle::size(). -/
def Bundle.size (B : Bundle) : ℕ := B.dir_matrix.length

/-- Space dimension, as Bundle::dim() (length of the first direction row). -/
def Bundle.dim (B : Bundle) : ℕ := (B.dir_matrix.headD []).length

/-- Embedding of Bundle::operator Polytope (Bundle.cpp): the rows of the
direction matrix with the upper offsets, followed by the negated rows with
the lower offsets.  The assumption constraints stored on the bundle are
not used by the conversion in the source. -/
def Bundle.asPolytope (B : Bundle) : Polytope :=
  { A := B.dir_matrix ++ B.dir_matrix.map negVec
    b := B.offp ++ B.offm }

/-- The polytope the specification claims for the conversion: the system
[D; -D] with [offp; offm] extended with every assumption half-space
recorded on the bundle.  This definition follows the words of the claim,
to be compared with Bundle.asPolytope taken from the source. -/
def Bundle.asPolytopeClaimed (B : Bundle) : Polytope :=
  { A := (B.dir_matrix ++ B.dir_matrix.map negVec) ++ B.constraintDirections
    b := (B.offp ++ B.offm) ++ B.constraintOffsets }

/-- The point set a bundle denotes (specification, section 3): the
intersection of the half-space pairs induced by the rows of D with their
offsets. -/
def Bundle.denotedSet (B : Bundle) : Set (List ℝ) :=
  {x | ∀ i < B.size,
    dot (B.dir_matrix.getD i []) x ≤ B.offp.getD i 0 ∧
    dot (negVec (B.dir_matrix.getD i [])) x ≤ B.offm.getD i 0}

theorem forall_mem_zip_iff_getD {α : Type} {l1 : List (List α)} {l2 : List ℝ}
    (h : l1.length = l2.length) (P : List α → ℝ → Prop) :
    (∀ p ∈ List.zip l1 l2, P p.1 p.2) ↔
      ∀ i < l1.length, P (l1.getD i []) (l2.getD i 0) := by
  induction l1 generalizing l2 with
  | nil => simp
  | cons a t ih =>
    cases l2 with
    | nil => simp at h
    | cons b tb =>
      simp only [List.length_cons, Nat.succ_inj] at h
      simp only [List.zip_cons_cons, List.mem_cons, List.length_cons]
      constructor
      · intro hz i hi
        cases i with
        | zero => exact hz (a, b) (Or.inl rfl)
        | succ j =>
          have := (ih h).mp (fun p hp => hz p (Or.inr hp)) j (by omega)
          simpa using this
      · intro hidx p hp
        rcases hp with hp | hp
        · have := hidx 0 (by omega)
          simp only [List.getD_cons_zero] at this
          rw [hp]
          exact this
        · refine (ih h).mpr ?_ p hp
          intro j hj
          have := hidx (j + 1) (by omega)
          simpa using this

theorem getD_map_negVec (l : List (List ℝ)) (i : ℕ) :
    (l.map negVec).getD i [] = negVec (l.getD i []) := by
  rcases Nat.lt_or_ge i l.length with hlt | hge
  · rw [List.getD_eq_getElem _ _ (by simpa using hlt),
      List.getD_eq_getElem _ _ hlt]
    simp
  · rw [List.getD_eq_default _ _ (by simpa using hge),
      List.getD_eq_default _ _ hge]
    simp [negVec]

theorem asPolytope_points_eq_denotedSet (B : Bundle)
    (hp : B.offp.length = B.size) (hm : B.offm.length = B.size) :
    B.asPolytope.points = B.denotedSet := by
  ext x
  have hlen : B.dir_matrix.length = B.offp.length := hp.symm
  have hlen2 : (B.dir_matrix.map negVec).length = B.offm.length := by
    simpa [Bundle.size] using hm.symm
  simp only [Polytope.points, Bundle.asPolytope, Bundle.denotedSet,
    Set.mem_setOf_eq]
  rw [List.zip_append (by simpa [Bundle.size] using hlen),
    List.forall_mem_append,
    forall_mem_zip_iff_getD hlen (fun u c => dot u x ≤ c),
    forall_mem_zip_iff_getD hlen2 (fun u c => dot u x ≤ c)]
  simp only [List.length_map]
  constructor
  · intro ⟨h1, h2⟩ i hi
    have hi2 : i < B.dir_matrix.length := by simpa [Bundle.size] using hi
    refine ⟨h1 i hi2, ?_⟩
    have := h2 i hi2
    rwa [getD_map_negVec] at this
  · intro h
    refine ⟨fun i hi => (h i (by simpa [Bundle.size] using hi)).1,
      fun i hi => ?_⟩
    rw [getD_map_negVec]
    exact (h i (by simpa [Bundle.size] using hi)).2

/-- Modelled from the spec: the linear-programming backed maximisation of
Polytope (its sources are not under the analysed tree).  The spec
describes it as maximising a linear objective over A x less or equal b,
so it is modelled as the supremum of the objective over the point set. -/
noncomputable def Polytope.maximize (P : Polytope) (obj : List ℝ) : ℝ :=
  sSup ((fun x => dot obj x) '' P.points)

theorem maximize_congr {P Q : Polytope} (h : P.points = Q.points)
    (obj : List ℝ) : P.maximize obj = Q.maximize obj := by
  rw [Polytope.maximize, Polytope.maximize, h]

/-- Embedding of Bundle::get_canonical (Bundle.cpp): each upper offset is
replaced by the maximum of its direction over the bundle polytope and
each lower offset by the maximum of the negated direction; the direction
and template matrices are passed unchanged to the bundle constructor. -/
noncomputable def Bundle.get_canonical (B : Bundle) : Bundle :=
  { dir_matrix := B.dir_matrix
    offp := B.dir_matrix.map (fun d => B.asPolytope.maximize d)
    offm := B.dir_matrix.map (fun d => B.asPolytope.maximize (negVec d))
    t_matrix := B.t_matrix
    constraintDirections := []
    constraintOffsets := [] }

theorem getD_map_val (f : List ℝ → ℝ) (l : List (List ℝ)) (i : ℕ)
    (h : i < l.length) : (l.map f).getD i 0 = f (l.getD i []) := by
  rw [List.getD_eq_getElem _ _ (by simpa using h), List.getD_eq_getElem _ _ h]
  simp

theorem dot_nil (u : List ℝ) : dot u [] = 0 := by
  simp [dot]

theorem bddAbove_vals {S : Set (List ℝ)} {f : List ℝ → ℝ} {c : ℝ}
    (h : ∀ x ∈ S, f x ≤ c) : BddAbove (f '' S) := by
  refine ⟨c, ?_⟩
  rintro y ⟨x, hx, rfl⟩
  exact h x hx

theorem image_eq_zero_singleton {T : Set (List ℝ)} {g : List ℝ → ℝ}
    (h0 : ∀ x ∈ T, g x = 0) (hne : T.Nonempty) : g '' T = {0} := by
  ext v
  constructor
  · rintro ⟨x, hx, rfl⟩
    simpa using h0 x hx
  · rintro rfl
    rcases hne with ⟨x, hx⟩
    exact ⟨x, hx, h0 x hx⟩

theorem mem_points_bound {B : Bundle}
    (hp : B.offp.length = B.size) (hm : B.offm.length = B.size)
    {x : List ℝ} (hx : x ∈ B.asPolytope.points) {i : ℕ} (hi : i < B.size) :
    dot (B.dir_matrix.getD i []) x ≤ B.offp.getD i 0 ∧
    dot (negVec (B.dir_matrix.getD i [])) x ≤ B.offm.getD i 0 := by
  rw [asPolytope_points_eq_denotedSet B hp hm] at hx
  exact hx i hi

theorem points_get_canonical (B : Bundle)
    (hp : B.offp.length = B.size) (hm : B.offm.length = B.size)
    (hne : B.asPolytope.points.Nonempty) :
    B.get_canonical.asPolytope.points = B.asPolytope.points := by
  have hcp : B.get_canonical.offp.length = B.get_canonical.size := by
    simp [Bundle.get_canonical, Bundle.size]
  have hcm : B.get_canonical.offm.length = B.get_canonical.size := by
    simp [Bundle.get_canonical, Bundle.size]
  ext x
  rw [asPolytope_points_eq_denotedSet _ hcp hcm,
    asPolytope_points_eq_denotedSet B hp hm]
  have hsize : B.get_canonical.size = B.size := rfl
  constructor
  · intro h i hi
    have hi2 : i < B.dir_matrix.length := hi
    have hcan := h i (by simpa [hsize] using hi)
    simp only [Bundle.get_canonical] at hcan
    rw [getD_map_val _ _ _ hi2, getD_map_val _ _ _ hi2] at hcan
    have hup : B.asPolytope.maximize (B.dir_matrix.getD i []) ≤ B.offp.getD i 0 := by
      refine csSup_le (hne.image _) ?_
      rintro y ⟨z, hz, rfl⟩
      exact (mem_points_bound hp hm hz hi).1
    have hlo : B.asPolytope.maximize (negVec (B.dir_matrix.getD i [])) ≤ B.offm.getD i 0 := by
      refine csSup_le (hne.image _) ?_
      rintro y ⟨z, hz, rfl⟩
      exact (mem_points_bound hp hm hz hi).2
    exact ⟨le_trans hcan.1 hup, le_trans hcan.2 hlo⟩
  · intro h i hi
    have hi2 : i < B.dir_matrix.length := by simpa [hsize, Bundle.size] using hi
    have hxS : x ∈ B.asPolytope.points := by
      rw [asPolytope_points_eq_denotedSet B hp hm]
      exact h
    simp only [Bundle.get_canonical]
    rw [getD_map_val _ _ _ hi2, getD_map_val _ _ _ hi2]
    constructor
    · exact le_csSup
        (bddAbove_vals (fun z hz => (mem_points_bound hp hm hz hi2).1))
        ⟨x, hxS, rfl⟩
    · exact le_csSup
        (bddAbove_vals (fun z hz => (mem_points_bound hp hm hz hi2).2))
        ⟨x, hxS, rfl⟩

theorem get_canonical_idem (B : Bundle)
    (hp : B.offp.length = B.size) (hm : B.offm.length = B.size) :
    B.get_canonical.get_canonical = B.get_canonical := by
  have hcp : B.get_canonical.offp.length = B.get_canonical.size := by
    simp [Bundle.get_canonical, Bundle.size]
  have hcm : B.get_canonical.offm.length = B.get_canonical.size := by
    simp [Bundle.get_canonical, Bundle.size]
  rcases Set.eq_empty_or_nonempty B.asPolytope.points with hS | hne
  · have hnil : ([] : List ℝ) ∈ B.get_canonical.asPolytope.points := by
      rw [asPolytope_points_eq_denotedSet _ hcp hcm]
      intro i hi
      have hi2 : i < B.dir_matrix.length := hi
      simp only [Bundle.get_canonical]
      rw [getD_map_val _ _ _ hi2, getD_map_val _ _ _ hi2, dot_nil, dot_nil,
        Polytope.maximize, Polytope.maximize, hS]
      simp [Real.sSup_empty]
    have hzero : ∀ x ∈ B.get_canonical.asPolytope.points,
        ∀ d ∈ B.dir_matrix, dot d x = 0 := by
      intro x hx d hd
      rcases List.mem_iff_get.mp hd with ⟨⟨i, hi⟩, rfl⟩
      rw [asPolytope_points_eq_denotedSet _ hcp hcm] at hx
      have hmem := hx i hi
      simp only [Bundle.get_canonical] at hmem
      rw [getD_map_val _ _ _ hi, getD_map_val _ _ _ hi,
        Polytope.maximize, Polytope.maximize, hS] at hmem
      simp only [Set.image_empty, Real.sSup_empty] at hmem
      have hget : B.dir_matrix.getD i [] = B.dir_matrix.get ⟨i, hi⟩ := by
        rw [List.getD_eq_getElem _ _ hi]
        simp
      rw [hget, dot_negVec] at hmem
      linarith [hmem.1, hmem.2]
    have hmax : ∀ d ∈ B.dir_matrix,
        B.get_canonical.asPolytope.maximize d = B.asPolytope.maximize d ∧
        B.get_canonical.asPolytope.maximize (negVec d)
          = B.asPolytope.maximize (negVec d) := by
      intro d hd
      have him : (fun x => dot d x) '' B.get_canonical.asPolytope.points
          = {0} :=
        image_eq_zero_singleton (fun x hx => hzero x hx d hd) ⟨[], hnil⟩
      have him2 : (fun x => dot (negVec d) x) ''
          B.get_canonical.asPolytope.points = {0} :=
        image_eq_zero_singleton
          (fun x hx => by rw [dot_negVec, hzero x hx d hd]; ring) ⟨[], hnil⟩
      constructor
      · rw [Polytope.maximize, Polytope.maximize, him, hS]
        simp [Real.sSup_empty, csSup_singleton]
      · rw [Polytope.maximize, Polytope.maximize, him2, hS]
        simp [Real.sSup_empty, csSup_singleton]
    have e1 : B.get_canonical.get_canonical.offp = B.get_canonical.offp :=
      List.map_congr_left (fun d hd => (hmax d hd).1)
    have e2 : B.get_canonical.get_canonical.offm = B.get_canonical.offm :=
      List.map_congr_left (fun d hd => (hmax d hd).2)
    exact Bundle.ext rfl e1 e2 rfl rfl rfl
  · have hpts := points_get_canonical B hp hm hne
    have e1 : B.get_canonical.get_canonical.offp = B.get_canonical.offp :=
      List.map_congr_left (fun d _ => maximize_congr hpts d)
    have e2 : B.get_canonical.get_canonical.offm = B.get_canonical.offm :=
      List.map_congr_left (fun d _ => maximize_congr hpts (negVec d))
    exact Bundle.ext rfl e1 e2 rfl rfl rfl

/-- C3: get_canonical keeps the direction and template matrices, its i-th
offsets are the LP maxima of D[i] and -D[i] over the bundle polytope, the
canonical bundle contains every point of the input, and get_canonical is
idempotent. -/
theorem claim_C3_get_canonical (B : Bundle)
    (hp : B.offp.length = B.size) (hm : B.offm.length = B.size) :
    (B.get_canonical.dir_matrix = B.dir_matrix ∧
     B.get_canonical.t_matrix = B.t_matrix) ∧
    (∀ i < B.size,
      B.get_canonical.offp.getD i 0
        = B.asPolytope.maximize (B.dir_matrix.getD i []) ∧
      B.get_canonical.offm.getD i 0
        = B.asPolytope.maximize (negVec (B.dir_matrix.getD i []))) ∧
    (∀ x ∈ B.asPolytope.points, x ∈ B.get_canonical.asPolytope.points) ∧
    B.get_canonical.get_canonical = B.get_canonical := by
  refine ⟨⟨rfl, rfl⟩, ?_, ?_, get_canonical_idem B hp hm⟩
  · intro i hi
    have hi2 : i < B.dir_matrix.length := hi
    simp only [Bundle.get_canonical]
    rw [getD_map_val _ _ _ hi2, getD_map_val _ _ _ hi2]
    exact ⟨rfl, rfl⟩
  · intro x hx
    have hne : B.asPolytope.points.Nonempty := ⟨x, hx⟩
    rw [points_get_canonical B hp hm hne]
    exact hx

/-- Bundle used to instantiate the C3 theorem. -/
def bundleW3 : Bundle :=
  { dir_matrix := [[1]], offp := [2], offm := [0], t_matrix := [[0]]
    constraintDirections := [], constraintOffsets := [] }

/-- Witness for C3: the canonicalisation theorem applied to a concrete
one-dimensional bundle. -/
theorem claim_C3_get_canonical_witness :
    (bundleW3.get_canonical.dir_matrix = bundleW3.dir_matrix ∧
     bundleW3.get_canonical.t_matrix = bundleW3.t_matrix) ∧
    (∀ i < bundleW3.size,
      bundleW3.get_canonical.offp.getD i 0
        = bundleW3.asPolytope.maximize (bundleW3.dir_matrix.getD i []) ∧
      bundleW3.get_canonical.offm.getD i 0
        = bundleW3.asPolytope.maximize (negVec (bundleW3.dir_matrix.getD i []))) ∧
    (∀ x ∈ bundleW3.asPolytope.points,
      x ∈ bundleW3.get_canonical.asPolytope.points) ∧
    bundleW3.get_canonical.get_canonical = bundleW3.get_canonical :=
  claim_C3_get_canonical bundleW3 rfl rfl

/-- Embedding of Bundle::getParallelotope (Bundle.cpp): the guard rejects
an index i strictly greater than the number of template rows; otherwise the
first dim entries of template row i select the parallelotope template rows
from the direction matrix, the matching offm entries as lower bounds and
the matching offp entries as upper bounds.  The returned triple carries
the constructor arguments (Lambda, lbound, ubound); the parallelotope
constructor itself is outside the analysed tree. -/
def Bundle.getParallelotope (B : Bundle) (i : ℕ) :
    Option (List (List ℝ) × List ℝ × List ℝ) :=
  if i > B.t_matrix.length then none
  else
    let row := (B.t_matrix.getD i []).take B.dim
    some (row.map (fun idx => B.dir_matrix.getD idx []),
          row.map (fun idx => B.offm.getD idx 0),
          row.map (fun idx => B.offp.getD idx 0))

/-- Embedding of the transfomation_mode enumeration of Bundle.h; the C++
enumerator values are AFO = 0 and OFO = 1 (declaration order). -/
inductive transfomation_mode where
  | AFO
  | OFO

/-- Integer value of a transfomation_mode enumerator, as produced by the
implicit enum-to-int conversion at the call of Bundle::transform. -/
def transfomation_mode.toInt : transfomation_mode → ℤ
  | .AFO => 0
  | .OFO => 1

/-- One update of a per-direction minimum table (minCoeffType::update in
Bundle::transform): entry k becomes the minimum of its old value and v. -/
def updMin (t : List ℝ) (k : ℕ) (v : ℝ) : List ℝ :=
  t.set k (min (t.getD k 0) v)

/-- Direction indices bounded while processing template i in
Bundle::transform: with mode == 0 the loop reads dir_b from the template
row, otherwise dir_b ranges over every direction index. -/
def dirIndices (B : Bundle) (mode : ℤ) (i : ℕ) : List ℕ :=
  if mode = 0 then B.t_matrix.getD i [] else List.range B.size

/-- Embedding of Bundle::transform (Bundle.cpp).  The per-template
Bernstein bounding pipeline (getParallelotope, the generator function,
compute_Bern_coeffs and find_max_coeffs) bottoms out in
BaseConverter::getBernCoeffsMatrix, which is outside the analysed tree;
it is modelled from the spec by the oracle pair bp/bm giving the upper
and lower Bernstein bounds for template i and direction b.  M stands for
the initial table value std::numeric_limits of double max().  The serial
branch of the source is embedded; the threaded branch computes the same
tables. -/
noncomputable def Bundle.transform (B : Bundle) (bp bm : ℕ → ℕ → ℝ)
    (M : ℝ) (mode : ℤ) : Bundle :=
  let st := (List.range B.t_matrix.length).foldl
    (fun st i => (dirIndices B mode i).foldl
      (fun s b => (updMin s.1 b (bp i b), updMin s.2 b (bm i b))) st)
    (List.replicate B.size M, List.replicate B.size M)
  let res : Bundle := ⟨B.dir_matrix, st.1, st.2, B.t_matrix, [], []⟩
  if mode = 0 then res.get_canonical else res

/-- Embedding of MaxCoeffFinder::coeff_eval_p for constant Bernstein
coefficients: the numeric value of the coefficient
(Expression::evaluate, outside the analysed tree, returns the value of a
constant expression, so constant coefficients are modelled by their
values). -/
def coeff_eval_p (c : ℚ) : ℚ := c

/-- Embedding of MaxCoeffFinder::coeff_eval_m: the negated value, with a
zero value normalised to plus zero by the conditional of the source. -/
def coeff_eval_m (c : ℚ) : ℚ := if c = 0 then 0 else -c

/-- Embedding of MaxCoeffFinder::find_max_coeffs: the running maxima of
coeff_eval_p and coeff_eval_m over the coefficient list, seeded with the
first coefficient.  The source dereferences the first element without a
guard and is only ever called on non-empty coefficient lists; the empty
case is given the junk value (0, 0). -/
def find_max_coeffs : List ℚ → ℚ × ℚ
  | [] => (0, 0)
  | c :: rest => rest.foldl
      (fun acc d => (max acc.1 (coeff_eval_p d), max acc.2 (coeff_eval_m d)))
      (coeff_eval_p c, coeff_eval_m c)

end Sapo

namespace Sapo

/-- C2 (amended): converting a bundle to a polytope yields exactly the
constraint system with matrix [D; -D] and right-hand side [offp; offm];
the assumption half-spaces recorded on the bundle are not part of the
produced system, and the point set of the polytope equals the point set
the bundle denotes (the intersection of the direction slabs). -/
theorem claim_C2_asPolytope (B : Bundle)
    (hp : B.offp.length = B.size) (hm : B.offm.length = B.size) :
    B.asPolytope.A = B.dir_matrix ++ B.dir_matrix.map negVec ∧
    B.asPolytope.b = B.offp ++ B.offm ∧
    B.asPolytope.points = B.denotedSet :=
  ⟨rfl, rfl, asPolytope_points_eq_denotedSet B hp hm⟩

/-- Bundle used to instantiate the C2 agreement theorem. -/
def bundleW2 : Bundle :=
  { dir_matrix := [[1]], offp := [2], offm := [0], t_matrix := [[0]]
    constraintDirections := [], constraintOffsets := [] }

/-- Witness for C2: the agreement theorem applied to a concrete
one-dimensional bundle. -/
theorem claim_C2_asPolytope_witness :
    bundleW2.asPolytope.A = bundleW2.dir_matrix ++ bundleW2.dir_matrix.map negVec ∧
    bundleW2.asPolytope.b = bundleW2.offp ++ bundleW2.offm ∧
    bundleW2.asPolytope.points = bundleW2.denotedSet :=
  claim_C2_asPolytope bundleW2 rfl rfl

/-- Bundle carrying an assumption half-space, used to refute the claim
that the conversion extends the system with the recorded assumptions. -/
def bundleC2 : Bundle :=
  { dir_matrix := [[1]], offp := [2], offm := [0], t_matrix := [[0]]
    constraintDirections := [[1]], constraintOffsets := [0] }

/-- C2 counterexample: on a bundle recording the assumption half-space
x less or equal 0, the polytope produced by the source conversion is not
the claimed system extended with that assumption: the row counts differ,
and the point [1] satisfies the produced system but not the claimed one. -/
theorem claim_C2_counterexample :
    bundleC2.asPolytope ≠ bundleC2.asPolytopeClaimed ∧
    [(1:ℝ)] ∈ bundleC2.asPolytope.points ∧
    [(1:ℝ)] ∉ bundleC2.asPolytopeClaimed.points := by
  refine ⟨?_, ?_, ?_⟩
  · intro h
    have hlen := congrArg (fun P => P.A.length) h
    simp [Bundle.asPolytope, Bundle.asPolytopeClaimed, bundleC2] at hlen
  · intro p hp
    simp only [bundleC2, Bundle.asPolytope, List.map_cons, List.map_nil,
      List.cons_append, List.nil_append, List.zip_cons_cons, List.zip_nil_right,
      List.mem_cons, List.not_mem_nil, or_false, negVec] at hp
    rcases hp with hp | hp <;>
      · rw [hp]
        simp [dot]
  · intro h
    have := h ([1], 0) (by
      simp [bundleC2, Bundle.asPolytopeClaimed, negVec, List.zip])
    simp [dot] at this
    norm_num at this

/-- C10: the guard of getParallelotope fails exactly for indices strictly
greater than the number of template rows; for every index below the row
count the returned parallelotope data selects the directions of template
row i together with the matching offm entries as lower bounds and offp
entries as upper bounds; the boundary index equal to the row count passes
the guard. -/
theorem claim_C10_getParallelotope (B : Bundle) (i : ℕ) :
    (B.getParallelotope i = none ↔ i > B.t_matrix.length) ∧
    (∀ h : i < B.t_matrix.length,
      B.getParallelotope i =
        some (((B.t_matrix.get ⟨i, h⟩).take B.dim).map
                (fun idx => B.dir_matrix.getD idx []),
              ((B.t_matrix.get ⟨i, h⟩).take B.dim).map
                (fun idx => B.offm.getD idx 0),
              ((B.t_matrix.get ⟨i, h⟩).take B.dim).map
                (fun idx => B.offp.getD idx 0))) ∧
    B.getParallelotope B.t_matrix.length ≠ none := by
  refine ⟨?_, ?_, ?_⟩
  · unfold Bundle.getParallelotope
    split
    · simpa
    · simp
      omega
  · intro h
    unfold Bundle.getParallelotope
    rw [if_neg (by omega)]
    have hrow : B.t_matrix.getD i [] = B.t_matrix.get ⟨i, h⟩ := by
      rw [List.getD_eq_getElem _ _ h]
      simp
    rw [hrow]
  · unfold Bundle.getParallelotope
    rw [if_neg (by omega)]
    simp

/-- Bundle used to instantiate the C10 theorem. -/
def bundleW10 : Bundle :=
  { dir_matrix := [[1, 0], [0, 1]], offp := [3, 4], offm := [5, 6]
    t_matrix := [[0, 1], [1, 0]], constraintDirections := []
    constraintOffsets := [] }

/-- Witness for C10: on a concrete two-dimensional bundle, index 0 yields
the identity template with its offsets and the boundary index 2 passes
the guard. -/
theorem claim_C10_getParallelotope_witness :
    bundleW10.getParallelotope 0
      = some ([[1, 0], [0, 1]], [5, 6], [3, 4]) ∧
    bundleW10.getParallelotope 2 ≠ none := by
  have h := claim_C10_getParallelotope bundleW10 0
  have h0 := h.2.1 (by norm_num [bundleW10])
  refine ⟨?_, ?_⟩
  · rw [h0]
    norm_num [bundleW10, Bundle.dim]
  · exact (claim_C10_getParallelotope bundleW10 0).2.2

/-- Bundle used to exhibit the transformation-mode inversion: two
directions in one dimension, a single template using only direction 0. -/
def bundleC1 : Bundle :=
  { dir_matrix := [[1], [2]], offp := [0, 0], offm := [0, 0]
    t_matrix := [[0]], constraintDirections := [], constraintOffsets := [] }

/-- Bernstein upper-bound oracle for the C1 instance. -/
def bpC1 : ℕ → ℕ → ℝ := fun _ b => if b = 0 then 1 else 5

/-- Bernstein lower-bound oracle for the C1 instance. -/
def bmC1 : ℕ → ℕ → ℝ := fun _ b => if b = 0 then 0 else 7

/-- C1: evaluation of Bundle::transform at the enumerator values of
transfomation_mode (Bundle.h: AFO = 0, OFO = 1).  With mode AFO the code
takes the mode == 0 branch: it bounds only the directions of the
template that owns each parallelotope (direction 1 keeps the initial
table value 1000) and canonicalises the result, which is the documented
OFO behaviour; with mode OFO it bounds every direction over every
template and skips canonicalisation, the documented AFO behaviour. -/
theorem claim_C1_transform_mode_inversion :
    bundleC1.transform bpC1 bmC1 1000 transfomation_mode.AFO.toInt
      = (Bundle.mk [[1], [2]] [1, 1000] [0, 1000] [[0]] [] []).get_canonical ∧
    bundleC1.transform bpC1 bmC1 1000 transfomation_mode.OFO.toInt
      = Bundle.mk [[1], [2]] [1, 5] [0, 7] [[0]] [] [] := by
  constructor
  · rw [show transfomation_mode.AFO.toInt = 0 from rfl]
    simp only [Bundle.transform, if_pos]
    congr 1
    apply Bundle.ext <;>
      simp only [bundleC1, dirIndices, updMin, Bundle.size, bpC1, bmC1,
        List.range_succ, List.range_zero, List.foldl_cons,
        List.foldl_nil, List.getD_cons_zero, List.getD_cons_succ,
        List.replicate_succ, List.replicate_zero, List.set_cons_zero,
        List.set_cons_succ, List.nil_append, List.append_nil,
        List.cons_append, List.length_cons, List.length_nil, if_pos,
        if_true, if_false] <;>
      norm_num [min_def]
  · rw [show transfomation_mode.OFO.toInt = 1 from rfl]
    simp only [Bundle.transform, if_neg (by norm_num : ¬ (1:ℤ) = 0)]
    apply Bundle.ext <;>
      simp only [bundleC1, dirIndices, updMin, Bundle.size, bpC1, bmC1,
        List.range_succ, List.range_zero, List.foldl_cons,
        List.foldl_nil, List.getD_cons_zero, List.getD_cons_succ,
        List.replicate_succ, List.replicate_zero, List.set_cons_zero,
        List.set_cons_succ, List.nil_append, List.append_nil,
        List.cons_append, List.length_cons, List.length_nil] <;>
      norm_num [min_def]

theorem foldl_pair_split (l : List ℚ) (a b : ℚ) :
    l.foldl (fun acc d => (max acc.1 (coeff_eval_p d),
        max acc.2 (coeff_eval_m d))) (a, b)
      = (l.foldl (fun x d => max x (coeff_eval_p d)) a,
         l.foldl (fun x d => max x (coeff_eval_m d)) b) := by
  induction l generalizing a b with
  | nil => rfl
  | cons c t ih => simp [List.foldl_cons, ih]

theorem foldl_max_spec (f : ℚ → ℚ) (a : ℚ) (l : List ℚ) :
    (l.foldl (fun x d => max x (f d)) a = a ∨
      l.foldl (fun x d => max x (f d)) a ∈ l.map f) ∧
    a ≤ l.foldl (fun x d => max x (f d)) a ∧
    ∀ x ∈ l.map f, x ≤ l.foldl (fun x d => max x (f d)) a := by
  induction l generalizing a with
  | nil => simp
  | cons c t ih =>
    have h := ih (max a (f c))
    have hfold : (c :: t).foldl (fun x d => max x (f d)) a
        = t.foldl (fun x d => max x (f d)) (max a (f c)) := rfl
    refine ⟨?_, ?_, ?_⟩
    · rw [hfold]
      rcases h.1 with h1 | h1
      · rcases le_total (f c) a with hc | hc
        · left
          rw [h1, max_eq_left hc]
        · right
          rw [h1, max_eq_right hc]
          exact List.mem_map_of_mem f (List.mem_cons_self c t)
      · right
        rw [List.map_cons]
        exact List.mem_cons_of_mem _ h1
    · rw [hfold]
      exact le_trans (le_max_left a (f c)) h.2.1
    · intro x hx
      rw [hfold]
      rw [List.map_cons, List.mem_cons] at hx
      rcases hx with rfl | hx
      · exact le_trans (le_max_right a (f c)) h.2.1
      · exact h.2.2 x hx

theorem coeff_eval_m_eq_neg (c : ℚ) : coeff_eval_m c = -c := by
  unfold coeff_eval_m
  split <;> simp_all

/-- C9: on a non-empty list of constant Bernstein coefficients,
find_max_coeffs returns the maximum of the coefficient values as p and
the maximum of the negated values as m; a zero coefficient contributes
plus zero to m. -/
theorem claim_C9_find_max_coeffs (cs : List ℚ) (h : cs ≠ []) :
    ((find_max_coeffs cs).1 ∈ cs ∧ ∀ x ∈ cs, x ≤ (find_max_coeffs cs).1) ∧
    ((find_max_coeffs cs).2 ∈ cs.map (fun c => -c) ∧
      ∀ x ∈ cs.map (fun c => -c), x ≤ (find_max_coeffs cs).2) ∧
    coeff_eval_m 0 = 0 := by
  cases cs with
  | nil => exact absurd rfl h
  | cons c t =>
    have hsplit := foldl_pair_split t (coeff_eval_p c) (coeff_eval_m c)
    have hmapm : t.map coeff_eval_m = t.map (fun c => -c) :=
      List.map_congr_left (fun d _ => coeff_eval_m_eq_neg d)
    have hp := foldl_max_spec coeff_eval_p (coeff_eval_p c) t
    have hm := foldl_max_spec coeff_eval_m (coeff_eval_m c) t
    have hmapp : t.map coeff_eval_p = t := by
      have hid : t.map coeff_eval_p = t.map id := rfl
      rw [hid, List.map_id]
    rw [hmapp] at hp
    rw [hmapm] at hm
    have hunfold : find_max_coeffs (c :: t)
        = t.foldl (fun acc d => (max acc.1 (coeff_eval_p d),
            max acc.2 (coeff_eval_m d))) (coeff_eval_p c, coeff_eval_m c) :=
      rfl
    have hfst : (find_max_coeffs (c :: t)).1
        = t.foldl (fun x d => max x (coeff_eval_p d)) (coeff_eval_p c) := by
      rw [hunfold, hsplit]
    have hsnd : (find_max_coeffs (c :: t)).2
        = t.foldl (fun x d => max x (coeff_eval_m d)) (coeff_eval_m c) := by
      rw [hunfold, hsplit]
    refine ⟨⟨?_, ?_⟩, ⟨?_, ?_⟩, by simp [coeff_eval_m]⟩
    · rw [hfst]
      rcases hp.1 with h1 | h1
      · rw [h1]
        exact List.mem_cons_self c t
      · exact List.mem_cons_of_mem c h1
    · intro x hx
      rw [hfst]
      rcases List.mem_cons.mp hx with rfl | hx
      · exact hp.2.1
      · exact hp.2.2 x hx
    · rw [hsnd]
      rcases hm.1 with h1 | h1
      · rw [h1, coeff_eval_m_eq_neg]
        simp
      · simp only [List.map_cons, List.mem_cons]
        right
        exact h1
    · intro x hx
      rw [hsnd]
      simp only [List.map_cons, List.mem_cons] at hx
      rcases hx with rfl | hx
      · rw [← coeff_eval_m_eq_neg]
        exact hm.2.1
      · exact hm.2.2 x hx

/-- Modelled from the spec: the STL abstract syntax (STL.h lists the node
kinds Atom, Conjunction, Disjunction, Until, Always, Eventually,
Negation; the node sources are outside the analysed tree).  An atom
carries the predicate expression evaluated on a state, satisfied when
the value is at most 0. -/
inductive StlF (St : Type) where
  | atom (p : St → ℚ)
  | neg (φ : StlF St)
  | conj (φ ψ : StlF St)
  | disj (φ ψ : StlF St)
  | always (a b : ℕ) (φ : StlF St)
  | eventually (a b : ℕ) (φ : StlF St)
  | untilF (a b : ℕ) (φ ψ : StlF St)

/-- Modelled from the spec: discrete-time trajectory satisfaction.  The
bounded until uses the interval-anchored convention, requiring the left
subformula from the start of the time interval up to the witness, which
is the convention under which the negation rule stated by the spec is a
logical identity. -/
def sat {St : Type} (σ : ℕ → St) : ℕ → StlF St → Prop
  | t, .atom p => p (σ t) ≤ 0
  | t, .neg φ => ¬ sat σ t φ
  | t, .conj φ ψ => sat σ t φ ∧ sat σ t ψ
  | t, .disj φ ψ => sat σ t φ ∨ sat σ t ψ
  | t, .always a b φ => ∀ i, a ≤ i → i ≤ b → sat σ (t + i) φ
  | t, .eventually a b φ => ∃ i, a ≤ i ∧ i ≤ b ∧ sat σ (t + i) φ
  | t, .untilF a b φ ψ => ∃ i, a ≤ i ∧ i ≤ b ∧ sat σ (t + i) ψ ∧
      ∀ j, a ≤ j → j < i → sat σ (t + j) φ

mutual

/-- Modelled from the spec: the PNF rewrite (section 4.H) on a formula in
positive position. -/
def pnf {St : Type} : StlF St → StlF St
  | .atom p => .atom p
  | .neg φ => npnf φ
  | .conj φ ψ => .conj (pnf φ) (pnf ψ)
  | .disj φ ψ => .disj (pnf φ) (pnf ψ)
  | .always a b φ => .always a b (pnf φ)
  | .eventually a b φ => .eventually a b (pnf φ)
  | .untilF a b φ ψ => .untilF a b (pnf φ) (pnf ψ)

/-- Modelled from the spec: the PNF rewrite of a negated formula, pushing
the negation inward.  The atom case applies the rule not Atom(p) =
Atom(-p - eps) with eps = 0 (the engine treats the strict inequality as
non-strict); the until case applies the rule stated by the spec. -/
def npnf {St : Type} : StlF St → StlF St
  | .atom p => .atom (fun s => -(p s))
  | .neg φ => pnf φ
  | .conj φ ψ => .disj (npnf φ) (npnf ψ)
  | .disj φ ψ => .conj (npnf φ) (npnf ψ)
  | .always a b φ => .eventually a b (npnf φ)
  | .eventually a b φ => .always a b (npnf φ)
  | .untilF a b φ ψ =>
      .disj (.untilF a b (npnf ψ) (.conj (npnf φ) (npnf ψ)))
        (.always a b (npnf ψ))

end

/-- No Negation node occurs anywhere in the formula. -/
def negFree {St : Type} : StlF St → Bool
  | .atom _ => true
  | .neg _ => false
  | .conj φ ψ => negFree φ && negFree ψ
  | .disj φ ψ => negFree φ && negFree ψ
  | .always _ _ φ => negFree φ
  | .eventually _ _ φ => negFree φ
  | .untilF _ _ φ ψ => negFree φ && negFree ψ

theorem negFree_pnf {St : Type} (φ : StlF St) :
    negFree (pnf φ) = true ∧ negFree (npnf φ) = true := by
  induction φ with
  | atom p => simp [pnf, npnf, negFree]
  | neg φ ih => simpa [pnf, npnf] using ⟨ih.2, ih.1⟩
  | conj φ ψ ihφ ihψ =>
    simp [pnf, npnf, negFree, ihφ.1, ihφ.2, ihψ.1, ihψ.2]
  | disj φ ψ ihφ ihψ =>
    simp [pnf, npnf, negFree, ihφ.1, ihφ.2, ihψ.1, ihψ.2]
  | always a b φ ih => simp [pnf, npnf, negFree, ih.1, ih.2]
  | eventually a b φ ih => simp [pnf, npnf, negFree, ih.1, ih.2]
  | untilF a b φ ψ ihφ ihψ =>
    simp [pnf, npnf, negFree, ihφ.1, ihφ.2, ihψ.1, ihψ.2]

theorem sat_pnf_strengthen {St : Type} (φ : StlF St) :
    ∀ (σ : ℕ → St) (t : ℕ),
      (sat σ t φ → sat σ t (pnf φ)) ∧ (¬ sat σ t φ → sat σ t (npnf φ)) := by
  induction φ with
  | atom p =>
    intro σ t
    constructor
    · intro h
      exact h
    · intro h
      simp only [sat, not_le] at h
      simp only [npnf, sat]
      linarith
  | neg φ ih =>
    intro σ t
    constructor
    · intro h
      exact (ih σ t).2 h
    · intro h
      simp only [sat, not_not] at h
      exact (ih σ t).1 h
  | conj φ ψ ihφ ihψ =>
    intro σ t
    constructor
    · rintro ⟨h1, h2⟩
      exact ⟨(ihφ σ t).1 h1, (ihψ σ t).1 h2⟩
    · intro h
      rw [sat, not_and_or] at h
      rcases h with h | h
      · exact Or.inl ((ihφ σ t).2 h)
      · exact Or.inr ((ihψ σ t).2 h)
  | disj φ ψ ihφ ihψ =>
    intro σ t
    constructor
    · rintro (h | h)
      · exact Or.inl ((ihφ σ t).1 h)
      · exact Or.inr ((ihψ σ t).1 h)
    · intro h
      rw [sat, not_or] at h
      exact ⟨(ihφ σ t).2 h.1, (ihψ σ t).2 h.2⟩
  | always a b φ ih =>
    intro σ t
    constructor
    · intro h i hai hib
      exact (ih σ (t + i)).1 (h i hai hib)
    · intro h
      rw [sat] at h
      push_neg at h
      rcases h with ⟨i, hai, hib, hi⟩
      exact ⟨i, hai, hib, (ih σ (t + i)).2 hi⟩
  | eventually a b φ ih =>
    intro σ t
    constructor
    · rintro ⟨i, hai, hib, hi⟩
      exact ⟨i, hai, hib, (ih σ (t + i)).1 hi⟩
    · intro h
      rw [sat] at h
      push_neg at h
      intro i hai hib
      exact (ih σ (t + i)).2 (h i hai hib)
  | untilF a b φ ψ ihφ ihψ =>
    intro σ t
    constructor
    · rintro ⟨i, hai, hib, hψ, hφ⟩
      exact ⟨i, hai, hib, (ihψ σ (t + i)).1 hψ,
        fun j haj hji => (ihφ σ (t + j)).1 (hφ j haj hji)⟩
    · intro h
      by_cases hψall : ∀ i, a ≤ i → i ≤ b → ¬ sat σ (t + i) ψ
      · exact Or.inr (fun i hai hib => (ihψ σ (t + i)).2 (hψall i hai hib))
      · push_neg at hψall
        left
        classical
        have hex : ∃ i, a ≤ i ∧ i ≤ b ∧ sat σ (t + i) ψ := by
          rcases hψall with ⟨i, hai, hib, hi⟩
          exact ⟨i, hai, hib, hi⟩
        let p : ℕ → Prop := fun i => a ≤ i ∧ i ≤ b ∧ sat σ (t + i) ψ
        have hs := Nat.find_spec hex
        set s := Nat.find hex with hsdef
        have hsmin := fun j (hj : j < s) => Nat.find_min hex hj
        rw [sat] at h
        push_neg at h
        have hφfail := h s hs.1 hs.2.1 hs.2.2
        rcases hφfail with ⟨j, haj, hjs, hjφ⟩
        have hex2 : ∃ j, a ≤ j ∧ j < s ∧ ¬ sat σ (t + j) φ :=
          ⟨j, haj, hjs, hjφ⟩
        have hu := Nat.find_spec hex2
        set u := Nat.find hex2 with hudef
        have humin := fun k (hk : k < u) => Nat.find_min hex2 hk
        have hub : u ≤ b := le_trans (le_of_lt hu.2.1) hs.2.1
        refine ⟨u, hu.1, hub, ?_, ?_⟩
        · constructor
          · exact (ihφ σ (t + u)).2 hu.2.2
          · refine (ihψ σ (t + u)).2 ?_
            intro hψu
            exact hsmin u hu.2.1 ⟨hu.1, hub, hψu⟩
        · intro k hak hku
          refine (ihψ σ (t + k)).2 ?_
          intro hψk
          have hks : k < s := lt_trans hku hu.2.1
          exact hsmin k hks ⟨hak, le_trans (le_of_lt hks) hs.2.1, hψk⟩

/-- C5 (amended): the PNF rewrite produces a formula with no Negation
node, applies the stated rule for negated Until, and over-approximates
the input: every trajectory satisfying the original formula satisfies
its PNF.  Full equivalence fails when a negated atom evaluates to
exactly zero, because the rewrite turns the strict complement into a
non-strict inequality (eps = 0). -/
theorem claim_C5_pnf {St : Type} (φ : StlF St) (σ : ℕ → St) (t : ℕ)
    (h : sat σ t φ) :
    negFree (pnf φ) = true ∧ sat σ t (pnf φ) ∧
    ∀ (a b : ℕ) (χ ψ : StlF St),
      pnf (StlF.neg (StlF.untilF a b χ ψ))
        = StlF.disj
            (StlF.untilF a b (npnf ψ) (StlF.conj (npnf χ) (npnf ψ)))
            (StlF.always a b (npnf ψ)) :=
  ⟨(negFree_pnf φ).1, (sat_pnf_strengthen φ σ t).1 h,
    fun _ _ _ _ => rfl⟩

/-- Formula used in the C5 witness: an atom that always holds. -/
def phiC5w : StlF ℚ := StlF.atom (fun _ => -1)

/-- Witness for C5: the amended PNF theorem applied to a concrete formula
and the constant-zero trajectory. -/
theorem claim_C5_pnf_witness :
    negFree (pnf phiC5w) = true ∧ sat (fun _ => (0:ℚ)) 0 (pnf phiC5w) ∧
    ∀ (a b : ℕ) (χ ψ : StlF ℚ),
      pnf (StlF.neg (StlF.untilF a b χ ψ))
        = StlF.disj
            (StlF.untilF a b (npnf ψ) (StlF.conj (npnf χ) (npnf ψ)))
            (StlF.always a b (npnf ψ)) :=
  claim_C5_pnf phiC5w (fun _ => (0:ℚ)) 0 (by norm_num [phiC5w, sat])

/-- Formula used in the C5 counterexample: the negation of an atom whose
expression evaluates to exactly zero on the trajectory. -/
def phiC5c : StlF ℚ := StlF.neg (StlF.atom (fun s => s))

/-- C5 counterexample: on the constant-zero trajectory the PNF of the
negated atom x less or equal 0 is satisfied while the original formula
is not, so the rewrite is not an equivalence. -/
theorem claim_C5_counterexample :
    ¬ (sat (fun _ => (0:ℚ)) 0 (pnf phiC5c) ↔ sat (fun _ => (0:ℚ)) 0 phiC5c) := by
  intro hiff
  have h1 : sat (fun _ => (0:ℚ)) 0 (pnf phiC5c) := by
    simp [phiC5c, pnf, npnf, sat]
  have h2 := hiff.mp h1
  simp [phiC5c, sat] at h2

/-- Modelled from the spec: the formula syntax accepted by the synthesis
dispatcher of Sapo.cpp (a NEGATION node falls into the default case and
raises logic_error, so synthesis operates on the negation-free fragment;
the spec states formulas are first put in PNF).  An atom carries the
predicate expression over a state and a parameter valuation, time bounds
are C++ ints. -/
inductive SynF (S P : Type) where
  | atom (p : S → P → ℚ)
  | conj (φ ψ : SynF S P)
  | disj (φ ψ : SynF S P)
  | always (a b : ℤ) (φ : SynF S P)
  | eventually (a b : ℤ) (φ : SynF S P)
  | untilF (a b : ℤ) (φ ψ : SynF S P)

/-- Weight used to justify termination of the synthesis recursion: the
Eventually case of Sapo.cpp rewrites into an Until whose left operand is
a fresh atom, so Eventually weighs more than that Until. -/
def SynF.sizeW {S P : Type} : SynF S P → ℕ
  | .atom _ => 1
  | .conj φ ψ => 1 + φ.sizeW + ψ.sizeW
  | .disj φ ψ => 1 + φ.sizeW + ψ.sizeW
  | .always _ _ φ => 2 + φ.sizeW
  | .eventually _ _ φ => 3 + φ.sizeW
  | .untilF _ _ φ ψ => 1 + φ.sizeW + ψ.sizeW

/-- End of the time interval of a temporal formula (TimeInterval::end). -/
def SynF.intervalEnd {S P : Type} : SynF S P → ℤ
  | .always _ b _ => b
  | .eventually _ b _ => b
  | .untilF _ b _ _ => b
  | _ => 0

open Classical

/-- Embedding of the mutually recursive Sapo::synthesize overloads of
Sapo.cpp (the type dispatcher at lines 563-607 together with the Atom,
Conjunction, Disjunction, Eventually, Until and Always cases).  Parameter
sets are modelled as point sets; SetsUnion add and intersect, which live
outside the analysed tree, are modelled from the spec as set union and
intersection.  The atom refinement (::synthesize on an atom, outside the
analysed tree) is modelled from the spec: it keeps the parameters for
which the predicate holds on every initial state.  transition_and_synthesis
(outside the analysed tree) is modelled from the spec: it replaces the
initial set by its one-step transform under the retained parameter set
and recurses at time + 1; the one-step transform is the parameter tr.
Subformula synthesis goes through the dispatcher, which restarts temporal
operators at time 0. -/
noncomputable def synthesize {S P : Type} (tr : Set S → Set P → Set S) :
    Set S → Set P → SynF S P → ℤ → Set P
  | init, pSet, .atom p, _ => {θ ∈ pSet | ∀ x ∈ init, p x θ ≤ 0}
  | init, pSet, .conj φ ψ, _ =>
      synthesize tr init pSet φ 0 ∩ synthesize tr init pSet ψ 0
  | init, pSet, .disj φ ψ, _ =>
      synthesize tr init pSet φ 0 ∪ synthesize tr init pSet ψ 0
  | init, pSet, .eventually a b φ, _ =>
      synthesize tr init pSet (.untilF a b (.atom (fun _ _ => -1)) φ) 0
  | init, pSet, .untilF a b φ ψ, time =>
      if _h1 : b < a then ∅
      else if _h2 : a > time then
        if synthesize tr init pSet φ 0 = ∅ then
          synthesize tr init pSet φ 0
        else
          synthesize tr (tr init (synthesize tr init pSet φ 0))
            (synthesize tr init pSet φ 0) (.untilF a b φ ψ) (time + 1)
      else if _h3 : b > time then
        if synthesize tr init pSet φ 0 = ∅ then
          synthesize tr init pSet ψ 0
        else
          synthesize tr (tr init (synthesize tr init pSet φ 0))
            (synthesize tr init pSet φ 0) (.untilF a b φ ψ) (time + 1)
            ∪ synthesize tr init pSet ψ 0
      else synthesize tr init pSet ψ 0
  | init, pSet, .always a b φ, time =>
      if _h1 : b < a then ∅
      else if _h2 : a > time then
        synthesize tr (tr init pSet) pSet (.always a b φ) (time + 1)
      else if _h3 : b > time then
        if synthesize tr init pSet φ 0 = ∅ then
          synthesize tr init pSet φ 0
        else
          synthesize tr (tr init (synthesize tr init pSet φ 0))
            (synthesize tr init pSet φ 0) (.always a b φ) (time + 1)
      else synthesize tr init pSet φ 0
  termination_by _ _ φ time => (φ.sizeW, (φ.intervalEnd + 1 - time).toNat)
  decreasing_by
  all_goals
    first
    | (apply Prod.Lex.left
       simp only [SynF.sizeW]
       omega)
    | (apply Prod.Lex.right
       simp only [SynF.intervalEnd]
       omega)

theorem synthesize_subset {S P : Type} (tr : Set S → Set P → Set S)
    (init : Set S) (pSet : Set P) (φ : SynF S P) (time : ℤ) :
    synthesize tr init pSet φ time ⊆ pSet := by
  induction init, pSet, φ, time using synthesize.induct tr with
  | case1 init pSet p x =>
    rw [synthesize.eq_1]
    exact fun θ hθ => hθ.1
  | case2 init pSet φ ψ x ih1 ih2 =>
    rw [synthesize.eq_2]
    exact fun θ hθ => ih1 hθ.1
  | case3 init pSet φ ψ x ih1 ih2 =>
    rw [synthesize.eq_3]
    exact fun θ hθ => hθ.elim (fun h => ih1 h) (fun h => ih2 h)
  | case4 init pSet a b φ x ih =>
    rw [synthesize.eq_4]
    exact ih
  | case5 init pSet a b φ ψ time h1 =>
    rw [synthesize.eq_5, dif_pos h1]
    exact Set.empty_subset pSet
  | case6 init pSet a b φ ψ time h1 h2 hemp ihφ =>
    rw [synthesize.eq_5, dif_neg h1, dif_pos h2, if_pos hemp]
    exact ihφ
  | case7 init pSet a b φ ψ time h1 h2 hemp ihφ ihrec =>
    rw [synthesize.eq_5, dif_neg h1, dif_pos h2, if_neg hemp]
    exact subset_trans ihrec ihφ
  | case8 init pSet a b φ ψ time h1 h2 h3 hemp ihφ ihψ =>
    rw [synthesize.eq_5, dif_neg h1, dif_neg h2, dif_pos h3, if_pos hemp]
    exact ihψ
  | case9 init pSet a b φ ψ time h1 h2 h3 hemp ihφ ihrec ihψ =>
    rw [synthesize.eq_5, dif_neg h1, dif_neg h2, dif_pos h3, if_neg hemp]
    exact fun θ hθ => hθ.elim (fun h => ihφ (ihrec h)) (fun h => ihψ h)
  | case10 init pSet a b φ ψ time h1 h2 h3 ihψ =>
    rw [synthesize.eq_5, dif_neg h1, dif_neg h2, dif_neg h3]
    exact ihψ
  | case11 init pSet a b φ time h1 =>
    rw [synthesize.eq_6, dif_pos h1]
    exact Set.empty_subset pSet
  | case12 init pSet a b φ time h1 h2 ih =>
    rw [synthesize.eq_6, dif_neg h1, dif_pos h2]
    exact ih
  | case13 init pSet a b φ time h1 h2 h3 hemp ihφ =>
    rw [synthesize.eq_6, dif_neg h1, dif_neg h2, dif_pos h3, if_pos hemp]
    exact ihφ
  | case14 init pSet a b φ time h1 h2 h3 hemp ihφ ihrec =>
    rw [synthesize.eq_6, dif_neg h1, dif_neg h2, dif_pos h3, if_neg hemp]
    exact subset_trans ihrec ihφ
  | case15 init pSet a b φ time h1 h2 h3 ihφ =>
    rw [synthesize.eq_6, dif_neg h1, dif_neg h2, dif_neg h3]
    exact ihφ

/-- A formula with no temporal operator (atoms, conjunctions and
disjunctions only). -/
def SynF.propositional {S P : Type} : SynF S P → Bool
  | .atom _ => true
  | .conj φ ψ => φ.propositional && ψ.propositional
  | .disj φ ψ => φ.propositional && ψ.propositional
  | _ => false

theorem synthesize_mono_propositional {S P : Type}
    (tr : Set S → Set P → Set S) (init : Set S) {Pa Pb : Set P}
    (hsub : Pa ⊆ Pb) (φ : SynF S P) (hφ : φ.propositional = true)
    (time : ℤ) :
    synthesize tr init Pa φ time ⊆ synthesize tr init Pb φ time := by
  induction φ generalizing time with
  | atom p =>
    rw [synthesize.eq_1, synthesize.eq_1]
    exact fun θ hθ => ⟨hsub hθ.1, hθ.2⟩
  | conj φ ψ ih1 ih2 =>
    simp only [SynF.propositional, Bool.and_eq_true] at hφ
    rw [synthesize.eq_2, synthesize.eq_2]
    exact fun θ hθ => ⟨ih1 hφ.1 0 hθ.1, ih2 hφ.2 0 hθ.2⟩
  | disj φ ψ ih1 ih2 =>
    simp only [SynF.propositional, Bool.and_eq_true] at hφ
    rw [synthesize.eq_3, synthesize.eq_3]
    exact fun θ hθ =>
      hθ.elim (fun h => Or.inl (ih1 hφ.1 0 h)) (fun h => Or.inr (ih2 hφ.2 0 h))
  | always a b φ ih => simp [SynF.propositional] at hφ
  | eventually a b φ ih => simp [SynF.propositional] at hφ
  | untilF a b φ ψ ih1 ih2 => simp [SynF.propositional] at hφ

/-- One-step transform used in the C4 counterexample and witness: the
dynamic x maps to θ, whose exact image of any initial set under the
parameter set P is P itself. -/
def trC4 : Set ℚ → Set ℚ → Set ℚ := fun _ ps => ps

/-- C4 (amended): the parameter set returned by synthesize is a subset
of the input parameter set for every formula, temporal operators
included; synthesize is monotone in the parameter-set argument for
formulas without temporal operators.  For temporal formulas
monotonicity fails in general, because a larger parameter set makes the
transformed reach set larger and thereby the atom refinements
stricter. -/
theorem claim_C4_synthesize {S P : Type} (tr : Set S → Set P → Set S)
    (init : Set S) (pSet : Set P) (φ : SynF S P) (time : ℤ) :
    synthesize tr init pSet φ time ⊆ pSet ∧
    (∀ (Pa Pb : Set P), Pa ⊆ Pb → ∀ ψ : SynF S P,
      ψ.propositional = true →
      synthesize tr init Pa ψ time ⊆ synthesize tr init Pb ψ time) :=
  ⟨synthesize_subset tr init pSet φ time,
    fun _ _ hsub ψ hψ => synthesize_mono_propositional tr init hsub ψ hψ time⟩

/-- Witness for C4: the subset half applied to a concrete temporal
(Always) formula, and the monotonicity half applied to a concrete atom
formula over concrete parameter intervals. -/
theorem claim_C4_synthesize_witness :
    synthesize trC4 ({0} : Set ℚ) (Set.Icc (0:ℚ) 1)
        (SynF.always 1 1 (SynF.atom (fun x _ => x - 1))) 0
      ⊆ Set.Icc (0:ℚ) 1 ∧
    synthesize trC4 ({0} : Set ℚ) (Set.Icc (0:ℚ) 1)
        (SynF.atom (fun x θ => x * θ)) 0
      ⊆ synthesize trC4 ({0} : Set ℚ) (Set.Icc (0:ℚ) 2)
        (SynF.atom (fun x θ => x * θ)) 0 :=
  ⟨(claim_C4_synthesize trC4 {0} (Set.Icc 0 1)
      (SynF.always 1 1 (SynF.atom (fun x _ => x - 1))) 0).1,
    (claim_C4_synthesize trC4 {0} (Set.Icc 0 1)
      (SynF.atom (fun x θ => x * θ)) 0).2 (Set.Icc 0 1) (Set.Icc 0 2)
      (Set.Icc_subset_Icc le_rfl (by norm_num))
      (SynF.atom (fun x θ => x * θ)) rfl⟩

/-- Formula used in the C4 counterexample: at time 1 the state stays at
most 1. -/
def phiC4 : SynF ℚ ℚ := SynF.always 1 1 (SynF.atom (fun x _ => x - 1))

/-- C4 counterexample: although Icc 0 1 is a subset of Icc 0 2,
synthesis of the Always formula retains the parameter 1 under the
smaller parameter set and nothing under the larger one, so synthesize
is not monotone in its parameter-set argument. -/
theorem claim_C4_counterexample :
    Set.Icc (0:ℚ) 1 ⊆ Set.Icc (0:ℚ) 2 ∧
    ¬ (synthesize trC4 {0} (Set.Icc (0:ℚ) 1) phiC4 0
        ⊆ synthesize trC4 {0} (Set.Icc (0:ℚ) 2) phiC4 0) := by
  constructor
  · exact Set.Icc_subset_Icc le_rfl (by norm_num)
  · have hsmall : synthesize trC4 {0} (Set.Icc (0:ℚ) 1) phiC4 0
        = {θ ∈ Set.Icc (0:ℚ) 1 | ∀ x ∈ Set.Icc (0:ℚ) 1, x - 1 ≤ 0} := by
      rw [phiC4, synthesize.eq_6, dif_neg (by norm_num), dif_pos (by norm_num),
        synthesize.eq_6, dif_neg (by norm_num), dif_neg (by norm_num),
        dif_neg (by norm_num), synthesize.eq_1]
      rfl
    have hbig : synthesize trC4 {0} (Set.Icc (0:ℚ) 2) phiC4 0
        = {θ ∈ Set.Icc (0:ℚ) 2 | ∀ x ∈ Set.Icc (0:ℚ) 2, x - 1 ≤ 0} := by
      rw [phiC4, synthesize.eq_6, dif_neg (by norm_num), dif_pos (by norm_num),
        synthesize.eq_6, dif_neg (by norm_num), dif_neg (by norm_num),
        dif_neg (by norm_num), synthesize.eq_1]
      rfl
    intro hmono
    have h1 : (1:ℚ) ∈ synthesize trC4 {0} (Set.Icc (0:ℚ) 1) phiC4 0 := by
      rw [hsmall]
      constructor
      · norm_num
      · intro x hx
        rcases hx with ⟨_, hx2⟩
        linarith
    have h2 := hmono h1
    rw [hbig] at h2
    have h3 := h2.2 2 (by norm_num)
    norm_num at h3

/-- Error kinds surfaced by the engine (specification section 7); only
the kind relevant to the synthesis guard is embedded. -/
inductive EngineError where
  | Unsupported
deriving DecidableEq

/-- Embedding of the guard shared by the two public Sapo::synthesize
overloads (Sapo.cpp lines 450-457 and 563-570): when the engine owns a
non-empty assumption set, a runtime error (Unsupported: assumptions not
supported in synthesis yet) is raised before any work on the parameter
set; otherwise the synthesis recursion runs, entered by the dispatcher
at time 0.  The assumption set is the list held by the engine. -/
noncomputable def synthesizeTop {S P A : Type} (assumptions : List A)
    (tr : Set S → Set P → Set S) (init : Set S) (pSet : Set P)
    (φ : SynF S P) : Except EngineError (Set P) :=
  if assumptions.length > 0 then .error .Unsupported
  else .ok (synthesize tr init pSet φ 0)

/-- C7: synthesize raises Unsupported exactly when the assumption set is
non-empty; the error is raised before refining (the outcome then does
not depend on the parameter set); with no assumptions the refinement
runs and its result is returned. -/
theorem claim_C7_synthesize_unsupported {S P A : Type}
    (assumptions : List A) (tr : Set S → Set P → Set S) (init : Set S)
    (pSet : Set P) (φ : SynF S P) :
    (synthesizeTop assumptions tr init pSet φ = .error .Unsupported ↔
      assumptions ≠ []) ∧
    (assumptions ≠ [] → ∀ pSet2,
      synthesizeTop assumptions tr init pSet φ
        = synthesizeTop assumptions tr init pSet2 φ) ∧
    (assumptions = [] →
      synthesizeTop assumptions tr init pSet φ
        = .ok (synthesize tr init pSet φ 0)) := by
  refine ⟨?_, ?_, ?_⟩
  · unfold synthesizeTop
    split
    · simp only [true_iff]
      intro hnil
      simp_all
    · constructor
      · intro h
        simp at h
      · intro hne
        exfalso
        have : assumptions.length > 0 := List.length_pos.mpr hne
        simp_all
  · intro hne pSet2
    unfold synthesizeTop
    have : assumptions.length > 0 := List.length_pos.mpr hne
    rw [if_pos this, if_pos this]
  · intro hnil
    unfold synthesizeTop
    rw [if_neg (by simp [hnil])]

/-- Witness for C7: the guard theorem applied to a concrete non-empty
assumption list over concrete sets. -/
theorem claim_C7_synthesize_unsupported_witness :
    (synthesizeTop [(0:ℚ)] trC4 ({0} : Set ℚ) (Set.Icc (0:ℚ) 1)
        (SynF.atom (fun _ _ => -1)) = .error .Unsupported ↔
      [(0:ℚ)] ≠ []) ∧
    ([(0:ℚ)] ≠ [] → ∀ pSet2,
      synthesizeTop [(0:ℚ)] trC4 ({0} : Set ℚ) (Set.Icc (0:ℚ) 1)
          (SynF.atom (fun _ _ => -1))
        = synthesizeTop [(0:ℚ)] trC4 ({0} : Set ℚ) pSet2
          (SynF.atom (fun _ _ => -1))) ∧
    ([(0:ℚ)] = [] →
      synthesizeTop [(0:ℚ)] trC4 ({0} : Set ℚ) (Set.Icc (0:ℚ) 1)
          (SynF.atom (fun _ _ => -1))
        = .ok (synthesize trC4 {0} (Set.Icc (0:ℚ) 1)
            (SynF.atom (fun _ _ => -1)) 0)) :=
  claim_C7_synthesize_unsupported [(0:ℚ)] trC4 {0} (Set.Icc (0:ℚ) 1)
    (SynF.atom (fun _ _ => -1))

/-- C8: synthesis of an Eventually formula is exactly synthesis of the
Until formula with the always-satisfied atom (the constant expression
-1, satisfied since -1 is at most 0) as left operand, over the same
interval, initial set and parameter set, entered at time 0. -/
theorem claim_C8_synthesize_eventually {S P : Type}
    (tr : Set S → Set P → Set S) (init : Set S) (pSet : Set P)
    (a b : ℤ) (φ : SynF S P) (time : ℤ) :
    synthesize tr init pSet (SynF.eventually a b φ) time
      = synthesize tr init pSet
          (SynF.untilF a b (SynF.atom (fun _ _ => -1)) φ) 0 ∧
    ∀ (x : S) (θ : P), (fun (_ : S) (_ : P) => (-1:ℚ)) x θ ≤ 0 :=
  ⟨synthesize.eq_4 tr init pSet time a b φ, fun _ _ => by norm_num⟩

/-- Modelled from the spec: the collaborators of Sapo::reach whose
sources are not under the analysed tree, bundled as parameters of the
reach embedding: the dynamical-system one-step transform (with the
engine transformation mode baked in), the assumption intersection,
bundle decomposition (randomised in the source; a function here), the
decomposition switch sapo->decomp > 0, bundle emptiness via the LP, and
the two bundle splits (the per-step split with the default ratio and the
initial split with ratio 1.0). -/
structure ReachParams where
  transform_ds : Bundle → Bundle
  intersect_assumptions : Bundle → Bundle
  decompose_b : Bundle → Bundle
  decomp_on : Bool
  isEmptyB : Bundle → Bool
  splitB : Bundle → List Bundle
  splitB1 : Bundle → List Bundle

/-- The bundle produced for b by the body of
compute_next_bundles_and_add_to_last before the emptiness test:
transform, intersect with the assumptions, optionally decompose. -/
def stepBundle (pr : ReachParams) (b : Bundle) : Bundle :=
  let nb := pr.intersect_assumptions (pr.transform_ds b)
  if pr.decomp_on then pr.decompose_b nb else nb

/-- Embedding of compute_next_bundles_and_add_to_last (Sapo.cpp, serial
branch): when the stepped bundle is not empty, its split is appended to
the next-bundle list and its polytope is added to the last-step union;
an empty stepped bundle leaves both untouched.  The union of polytopes
(SetsUnion, outside the analysed tree) is modelled as the list of its
polytopes, add appending. -/
def computeNextBundlesAndAddToLast (pr : ReachParams)
    (st : List Bundle × List Polytope) (b : Bundle) :
    List Bundle × List Polytope :=
  let nb := stepBundle pr b
  if pr.isEmptyB nb then st
  else (st.1 ++ pr.splitB nb, st.2 ++ [nb.asPolytope])

/-- Embedding of the iteration of Sapo::reach: while the horizon is not
reached and the last step is not empty, process every current bundle,
append the new last-step union to the flowpipe and continue with the
collected next bundles. -/
def reachLoop (pr : ReachParams) :
    List Bundle → List Polytope → ℕ → List (List Polytope)
  | _, _, 0 => []
  | cb, last, k + 1 =>
    if last.length = 0 then []
    else
      let st := cb.foldl (computeNextBundlesAndAddToLast pr) ([], [])
      st.2 :: reachLoop pr st.1 st.2 k

/-- Embedding of Sapo::reach (Sapo.cpp, without parameters): intersect
the initial set with the assumptions, split it with ratio 1.0, seed the
flowpipe with the initial union (simplify, outside the analysed tree,
keeps an equivalent system and is modelled as the identity on the
denoted set) and iterate. -/
def reach (pr : ReachParams) (init : Bundle) (k : ℕ) :
    List (List Polytope) :=
  let init2 := pr.intersect_assumptions init
  last0 :: reachLoop pr (pr.splitB1 init2) last0 k
where last0 : List Polytope := [(pr.intersect_assumptions init).asPolytope]

theorem reachLoop_nil_last (pr : ReachParams) (cb : List Bundle) (k : ℕ) :
    reachLoop pr cb [] k = [] := by
  cases k with
  | zero => rfl
  | succ m => rfl

/-- C6: a transformed bundle whose polytope is empty contributes neither
to the next-step bundle list nor to the step union, and removing it from
the step leaves the step result unchanged (the remaining bundles are
still processed); when the union computed by a step is empty, the loop
appends it and stops, returning the flowpipe built so far as a normal
value. -/
theorem claim_C6_reach_empty_policy (pr : ReachParams) :
    (∀ (st : List Bundle × List Polytope) (b : Bundle),
      pr.isEmptyB (stepBundle pr b) = true →
      computeNextBundlesAndAddToLast pr st b = st) ∧
    (∀ (s : List Bundle × List Polytope) (xs ys : List Bundle) (b : Bundle),
      pr.isEmptyB (stepBundle pr b) = true →
      (xs ++ b :: ys).foldl (computeNextBundlesAndAddToLast pr) s
        = (xs ++ ys).foldl (computeNextBundlesAndAddToLast pr) s) ∧
    (∀ (cb : List Bundle) (last : List Polytope) (k : ℕ),
      last ≠ [] →
      (cb.foldl (computeNextBundlesAndAddToLast pr) ([], [])).2 = [] →
      reachLoop pr cb last (k + 1) = [[]]) := by
  have hdrop : ∀ (st : List Bundle × List Polytope) (b : Bundle),
      pr.isEmptyB (stepBundle pr b) = true →
      computeNextBundlesAndAddToLast pr st b = st := by
    intro st b hb
    unfold computeNextBundlesAndAddToLast
    rw [if_pos hb]
  refine ⟨hdrop, ?_, ?_⟩
  · intro s xs ys b hb
    rw [List.foldl_append, List.foldl_append, List.foldl_cons,
      hdrop (xs.foldl (computeNextBundlesAndAddToLast pr) s) b hb]
  · intro cb last k hlast hempty
    rw [reachLoop, if_neg (by simpa [List.length_eq_zero] using hlast)]
    simp only []
    rw [hempty, reachLoop_nil_last]

/-- Reach parameters used in the C6 witness: the identity pipeline whose
emptiness test always fires. -/
def prC6 : ReachParams :=
  { transform_ds := id, intersect_assumptions := id, decompose_b := id
    decomp_on := false, isEmptyB := fun _ => true
    splitB := fun b => [b], splitB1 := fun b => [b] }

/-- Bundle used in the C6 witness. -/
def bundleW6 : Bundle :=
  { dir_matrix := [[1]], offp := [1], offm := [0], t_matrix := [[0]]
    constraintDirections := [], constraintOffsets := [] }

/-- Witness for C6: the empty-step policy applied to a concrete engine
whose transformed bundles are all empty. -/
theorem claim_C6_reach_empty_policy_witness :
    computeNextBundlesAndAddToLast prC6 ([], []) bundleW6 = ([], []) ∧
    ([bundleW6] ++ bundleW6 :: []).foldl
        (computeNextBundlesAndAddToLast prC6) ([], [])
      = ([bundleW6] ++ []).foldl (computeNextBundlesAndAddToLast prC6)
        ([], []) ∧
    reachLoop prC6 [bundleW6] [bundleW6.asPolytope] 1 = [[]] := by
  have h := claim_C6_reach_empty_policy prC6
  refine ⟨h.1 ([], []) bundleW6 rfl, h.2.1 ([], []) [bundleW6] [] bundleW6 rfl, ?_⟩
  exact h.2.2 [bundleW6] [bundleW6.asPolytope] 0 (by simp)
    (by
      rw [List.foldl_cons, h.1 ([], []) bundleW6 rfl]
      rfl)

/-- Witness for C9: the characterisation applied to the concrete
coefficient list [3, -2, 0]. -/
theorem claim_C9_find_max_coeffs_witness :
    ((find_max_coeffs [3, -2, 0]).1 ∈ [(3:ℚ), -2, 0] ∧
      ∀ x ∈ [(3:ℚ), -2, 0], x ≤ (find_max_coeffs [3, -2, 0]).1) ∧
    ((find_max_coeffs [3, -2, 0]).2 ∈ [(3:ℚ), -2, 0].map (fun c => -c) ∧
      ∀ x ∈ [(3:ℚ), -2, 0].map (fun c => -c),
        x ≤ (find_max_coeffs [3, -2, 0]).2) ∧
    coeff_eval_m 0 = 0 :=
  claim_C9_find_max_coeffs [3, -2, 0] (by decide)

end Sapo
